import Mathlib

/-!
Shallow embedding of the extractive-summarization core of `src/main.py`
(`ExtractiveSummarizer`: `clean_text`, `calculate_word_frequency`,
`score_sentences`, `summarize`).

Modelling conventions:
* Python strings are Lean `String`s / `List Char`; the ASCII fragment of the
  Python character classes is modelled (`\s` as the six ASCII whitespace
  characters, `\w` as alphanumeric-or-underscore, `str.isalnum` as
  all-alphanumeric-and-nonempty).
* Python floats are modelled as `ℚ` (the claims only involve exact values
  0, 1 and order, where IEEE division agrees with exact arithmetic).
* The external NLTK sentence and word tokenizers are parameters
  (`sentTok`, `wordTok : String → List String`), as the spec treats them as
  external collaborators; concrete simple tokenizers are supplied for
  witnesses.
* Python's stable `sorted` is modelled by a stable insertion sort.
-/

namespace Summarizer

/-- The six ASCII characters matched by Python's regex `\s`. -/
def isPySpace (c : Char) : Bool :=
  c = ' ' || c = '\t' || c = '\n' || c = '\r' || c = '\x0b' || c = '\x0c'

/-- ASCII fragment of Python's regex `\w`: alphanumeric or underscore. -/
def isWordChar (c : Char) : Bool :=
  c.isAlphanum || c = '_'

/-- A character kept by the deletion regex `[^\w\s.,!?-]` of `clean_text`. -/
def isKeptChar (c : Char) : Bool :=
  isWordChar c || isPySpace c || c = '.' || c = ',' || c = '!' || c = '?' || c = '-'

/-- `re.sub(r'\s+', ' ', text)`: replace each maximal run of whitespace
characters by a single space. -/
def collapseWs : List Char → List Char
  | [] => []
  | [c] => if isPySpace c then [' '] else [c]
  | c :: d :: cs =>
    if isPySpace c then
      if isPySpace d then collapseWs (d :: cs) else ' ' :: collapseWs (d :: cs)
    else c :: collapseWs (d :: cs)

/-- Python `str.strip()`: drop whitespace from both ends. -/
def stripWs (l : List Char) : List Char :=
  ((l.dropWhile isPySpace).reverse.dropWhile isPySpace).reverse

/-- `clean_text` on character lists: collapse whitespace runs, delete the
characters matched by `[^\w\s.,!?-]`, then strip. -/
def cleanL (l : List Char) : List Char :=
  stripWs ((collapseWs l).filter isKeptChar)

/-- `ExtractiveSummarizer.clean_text` (src/main.py lines 101-105). -/
def clean_text (s : String) : String :=
  ⟨cleanL s.data⟩

/-- Python `str.lower()`: lowercase every character. -/
def lowerStr (s : String) : String :=
  ⟨s.data.map Char.toLower⟩

/-- Python `str.isalnum`: nonempty and every character alphanumeric. -/
def pyStrIsAlnum (w : String) : Bool :=
  !w.data.isEmpty && w.data.all Char.isAlphanum

/-- The token list surviving the filter of `calculate_word_frequency`
(line 110): lowercase, tokenize, keep alphanumeric non-stopword tokens. -/
def filteredWords (wordTok : String → List String) (stops : List String)
    (text : String) : List String :=
  (wordTok (lowerStr text)).filter (fun w => pyStrIsAlnum w && !(stops.contains w))

/-- The distinct keys of `Counter(words)` in first-occurrence order. -/
def firstKeys : List String → List String
  | [] => []
  | w :: ws => w :: (firstKeys ws).filter (fun v => !(v == w))

/-- `max(freq.values()) if freq else 1` (line 113).  For a nonempty token
list the values are the positive counts of the distinct keys, so folding
`Nat.max` from 0 computes their maximum. -/
def maxCount (ws : List String) : Nat :=
  if ws.isEmpty then 1
  else ((firstKeys ws).map (fun w => ws.count w)).foldl Nat.max 0

/-- `ExtractiveSummarizer.calculate_word_frequency` (lines 107-119): the
normalized frequency map as an association list in key insertion order. -/
def calculate_word_frequency (wordTok : String → List String)
    (stops : List String) (text : String) : List (String × ℚ) :=
  let ws := filteredWords wordTok stops text
  (firstKeys ws).map (fun w => (w, (ws.count w : ℚ) / (maxCount ws : ℚ)))

/-- The per-sentence score of `score_sentences` (lines 125-141): sum of the
frequencies of the sentence's alphanumeric words that are in the map,
divided by the count of those in-map words; 0 when there are none. -/
def sentenceScore (wordTok : String → List String) (fm : List (String × ℚ))
    (sentence : String) : ℚ :=
  let ws := (wordTok (lowerStr sentence)).filter pyStrIsAlnum
  let inws := ws.filter (fun w => (fm.lookup w).isSome)
  if inws.length = 0 then 0
  else (inws.map (fun w => ((fm.lookup w).getD 0))).sum / (inws.length : ℚ)

/-- `ExtractiveSummarizer.score_sentences` (lines 121-143): the dict from
sentence index to score, in index order. -/
def score_sentences (wordTok : String → List String) (fm : List (String × ℚ))
    (sentences : List String) : List (Nat × ℚ) :=
  sentences.enum.map (fun p => (p.1, sentenceScore wordTok fm p.2))

/-- Stable insertion for the score-descending sort: `p` (originally later)
goes after every element of at least its score. -/
def insertByScore (p : Nat × ℚ) : List (Nat × ℚ) → List (Nat × ℚ)
  | [] => [p]
  | q :: qs => if q.2 > p.2 then q :: insertByScore p qs else p :: q :: qs

/-- `sorted(sentence_scores.items(), key=score, reverse=True)` (lines
157-159): stable descending sort by score. -/
def sortByScoreDesc : List (Nat × ℚ) → List (Nat × ℚ)
  | [] => []
  | p :: ps => insertByScore p (sortByScoreDesc ps)

/-- Stable insertion for the index-ascending sort. -/
def insertByIdx (p : Nat × ℚ) : List (Nat × ℚ) → List (Nat × ℚ)
  | [] => [p]
  | q :: qs => if p.1 ≤ q.1 then p :: q :: qs else q :: insertByIdx p qs

/-- `sorted(top_sentences, key=index)` (line 162). -/
def sortByIdx : List (Nat × ℚ) → List (Nat × ℚ)
  | [] => []
  | p :: ps => insertByIdx p (sortByIdx ps)

/-- Top-k selection (lines 157-162): take the first `k` of the stable
score-descending ranking, then restore original index order. -/
def selectTop (scores : List (Nat × ℚ)) (k : Nat) : List (Nat × ℚ) :=
  sortByIdx ((sortByScoreDesc scores).take k)

/-- `ExtractiveSummarizer.summarize` (lines 145-165). -/
def summarize (sentTok wordTok : String → List String) (stops : List String)
    (text : String) (k : Nat) : String :=
  let t := clean_text text
  let sentences := sentTok t
  if sentences.length ≤ k then t
  else
    let fm := calculate_word_frequency wordTok stops t
    let scores := score_sentences wordTok fm sentences
    String.intercalate " " ((selectTop scores k).map (fun p => sentences.getD p.1 ""))

/-! Simple concrete tokenizers used for witnesses and counterexamples. -/

/-- Accumulating splitter on a separator character, dropping empty chunks. -/
def chunksAux (sep : Char) : List Char → List Char → List String
  | [], acc => if acc.isEmpty then [] else [⟨acc.reverse⟩]
  | c :: cs, acc =>
    if c = sep then
      (if acc.isEmpty then chunksAux sep cs [] else ⟨acc.reverse⟩ :: chunksAux sep cs [])
    else chunksAux sep cs (c :: acc)

/-- A word tokenizer that splits on spaces. -/
def spaceTok (s : String) : List String :=
  chunksAux ' ' s.data []

/-- A sentence splitter returning no sentence on empty input and one
sentence otherwise. -/
def wholeSent (s : String) : List String :=
  if s == "" then [] else [s]

/-! Definitions taken from the spec's wording, for the refinement claims. -/

/-- The scoring rule exactly as claim C1 states it: the numerator sums the
frequency-map values of the sentence's lowercased alphanumeric words
(absent words contributing 0), the denominator counts ALL of the
sentence's alphanumeric words, and the score is 0 when the sentence has no
alphanumeric words. -/
def sentenceScoreClaimed (wordTok : String → List String)
    (fm : List (String × ℚ)) (sentence : String) : ℚ :=
  let ws := (wordTok (lowerStr sentence)).filter pyStrIsAlnum
  if ws.length = 0 then 0
  else (ws.map (fun w => ((fm.lookup w).getD 0))).sum / (ws.length : ℚ)

/-- The scoring rule with the denominator the code actually uses: the count
of the sentence's alphanumeric words that are present in the map, with
score 0 when no word of the sentence is in the map. -/
def sentenceScoreInMap (wordTok : String → List String)
    (fm : List (String × ℚ)) (sentence : String) : ℚ :=
  let ws := (wordTok (lowerStr sentence)).filter pyStrIsAlnum
  let present := ws.filter (fun w => (fm.lookup w).isSome)
  if present.length = 0 then 0
  else (ws.map (fun w => ((fm.lookup w).getD 0))).sum / (present.length : ℚ)

/-- Normalization exactly as claim C7 states it: collapse whitespace runs,
remove every character that is not alphanumeric, whitespace or one of
`. , ! ? -`, then trim. -/
def cleanTextClaimed (s : String) : String :=
  ⟨stripWs ((collapseWs s.data).filter
    (fun c => c.isAlphanum || isPySpace c || c = '.' || c = ',' || c = '!' || c = '?' || c = '-'))⟩

/-- Normalization as C7 amended for Python's `\w`, which also keeps the
underscore. -/
def cleanTextUnderscore (s : String) : String :=
  ⟨stripWs ((collapseWs s.data).filter
    (fun c => c.isAlphanum || c = '_' || isPySpace c || c = '.' || c = ',' || c = '!' || c = '?' || c = '-'))⟩

/-- The request-handler guard of the `/summarize` endpoint
(src/main.py line 261): `not text or len(text.strip()) < 50`. -/
def request_rejects_text (text : String) : Bool :=
  text == "" || (stripWs text.data).length < 50

/-! ### C3: short-circuit law -/

/-- C3: for every input text and every k, if the normalized text splits
into at most k sentences, `summarize` returns the normalized full text
verbatim — no ranking, no dropping, no re-ordering. -/
theorem summarize_short_circuit (sentTok wordTok : String → List String)
    (stops : List String) (text : String) (k : Nat)
    (h : (sentTok (clean_text text)).length ≤ k) :
    summarize sentTok wordTok stops text k = clean_text text := by
  simp only [summarize]
  rw [if_pos h]

theorem summarize_short_circuit_witness :
    (wholeSent (clean_text "hi")).length ≤ 5 ∧
      summarize wholeSent spaceTok [] "hi" 5 = clean_text "hi" :=
  ⟨by decide, summarize_short_circuit wholeSent spaceTok [] "hi" 5 (by decide)⟩

/-! ### C2: behaviour on a document with zero sentences -/

/-- C2 counterexample: on the empty string the normalized text yields zero
sentences, yet `summarize` returns a value (the empty string) through the
short-circuit; nothing named `EmptyDocumentError` exists in the code. -/
theorem summarize_empty_returns_value :
    wholeSent (clean_text "") = [] ∧ summarize wholeSent spaceTok [] "" 5 = "" := by
  exact ⟨by decide, by decide⟩

/-- C2 (amended): when the normalized text yields zero sentences the core
`summarize` does not fail: the `len(sentences) <= num_sentences`
short-circuit returns the normalized text (the empty string for empty
input).  Empty input is instead rejected at the HTTP layer by the
50-character minimum guard. -/
theorem summarize_zero_sentences (sentTok wordTok : String → List String)
    (stops : List String) (text : String) (k : Nat)
    (h : sentTok (clean_text text) = []) :
    summarize sentTok wordTok stops text k = clean_text text ∧
      request_rejects_text "" = true := by
  refine ⟨?_, by decide⟩
  simp only [summarize]
  rw [if_pos (by simp [h])]

theorem summarize_zero_sentences_witness :
    wholeSent (clean_text "") = [] ∧
      (summarize wholeSent spaceTok [] "" 5 = clean_text "" ∧
        request_rejects_text "" = true) :=
  ⟨by decide, summarize_zero_sentences wholeSent spaceTok [] "" 5 (by decide)⟩

/-! ### C8: empty token set never divides by zero -/

/-- C8: when the surviving token set is empty, `maxCount` defaults to 1,
the frequency map is empty, and every sentence score defaults to 0; the
embedded core is a total function, so no `DegenerateFrequencyError`-style
failure can occur. -/
theorem empty_tokens_defaults (wordTok wordTok' : String → List String)
    (stops : List String) (text s : String)
    (h : filteredWords wordTok stops text = []) :
    maxCount (filteredWords wordTok stops text) = 1 ∧
      calculate_word_frequency wordTok stops text = [] ∧
      sentenceScore wordTok' (calculate_word_frequency wordTok stops text) s = 0 := by
  have hfm : calculate_word_frequency wordTok stops text = [] := by
    simp [calculate_word_frequency, h, firstKeys]
  refine ⟨by simp [maxCount, h], hfm, ?_⟩
  rw [hfm]
  simp [sentenceScore, List.lookup]

theorem empty_tokens_defaults_witness :
    filteredWords spaceTok ["the"] "the the" = [] ∧
      (maxCount (filteredWords spaceTok ["the"] "the the") = 1 ∧
        calculate_word_frequency spaceTok ["the"] "the the" = [] ∧
        sentenceScore spaceTok (calculate_word_frequency spaceTok ["the"] "the the") "x y" = 0) :=
  ⟨by decide, empty_tokens_defaults spaceTok spaceTok ["the"] "the the" "x y" (by decide)⟩

/-! ### C1: the sentence-score denominator -/

/-- Dropping the words whose lookup misses does not change the default-0
frequency sum. -/
theorem sum_getD_filter_isSome (f : String → Option ℚ) (ws : List String) :
    ((ws.filter (fun w => (f w).isSome)).map (fun w => ((f w).getD 0))).sum
      = (ws.map (fun w => ((f w).getD 0))).sum := by
  induction ws with
  | nil => simp
  | cons w t ih =>
    by_cases h : (f w).isSome
    · simp only [List.filter_cons, h, if_pos, List.map_cons, List.sum_cons, ih]
    · have hn : f w = none := Option.not_isSome_iff_eq_none.mp h
      simp [List.filter_cons, h, hn, ih]

/-- C1 counterexample: with the frequency map `[("cat", 1)]` and the
sentence "the cat" (two alphanumeric words, one of them in the map), the
code's score is 1 while the claimed formula gives 1/2. -/
theorem sentence_score_claim_fails :
    sentenceScore spaceTok [("cat", 1)] "the cat" ≠
      sentenceScoreClaimed spaceTok [("cat", 1)] "the cat" := by
  have e1 : (spaceTok (lowerStr "the cat")).filter pyStrIsAlnum = ["the", "cat"] := by
    decide
  have e2 : (["the", "cat"].filter
      (fun w => (([("cat", (1:ℚ))] : List (String × ℚ)).lookup w).isSome)) = ["cat"] := by
    decide
  have h1 : sentenceScore spaceTok [("cat", 1)] "the cat" = 1 := by
    simp only [sentenceScore]
    rw [e1, e2]
    norm_num [List.lookup]
  have e3 : (("the" == "cat") : Bool) = false := by decide
  have h2 : sentenceScoreClaimed spaceTok [("cat", 1)] "the cat" = 1/2 := by
    simp only [sentenceScoreClaimed]
    rw [e1]
    norm_num [List.lookup, e3]
  rw [h1, h2]
  norm_num

/-- C1 (amended): the computed sentence score sums the default-0 map values
of the sentence's lowercased alphanumeric words, but divides by the count
of the alphanumeric words that are PRESENT in the map, and is 0 when the
sentence has no in-map word. -/
theorem sentence_score_inmap_average (wordTok : String → List String)
    (fm : List (String × ℚ)) (sentence : String) :
    sentenceScore wordTok fm sentence = sentenceScoreInMap wordTok fm sentence := by
  simp only [sentenceScore, sentenceScoreInMap]
  rw [sum_getD_filter_isSome (fun w => fm.lookup w)]

/-! ### Sorting lemmas for C5 and C10 -/

theorem insertByScore_perm (p : Nat × ℚ) (l : List (Nat × ℚ)) :
    (insertByScore p l).Perm (p :: l) := by
  induction l with
  | nil => simp [insertByScore]
  | cons q qs ih =>
    by_cases h : q.2 > p.2
    · rw [insertByScore, if_pos h]
      exact (ih.cons q).trans (List.Perm.swap p q qs)
    · rw [insertByScore, if_neg h]

theorem sortByScoreDesc_perm (l : List (Nat × ℚ)) :
    (sortByScoreDesc l).Perm l := by
  induction l with
  | nil => simp [sortByScoreDesc]
  | cons p ps ih =>
    rw [sortByScoreDesc]
    exact (insertByScore_perm p (sortByScoreDesc ps)).trans (ih.cons p)

theorem insertByIdx_perm (p : Nat × ℚ) (l : List (Nat × ℚ)) :
    (insertByIdx p l).Perm (p :: l) := by
  induction l with
  | nil => simp [insertByIdx]
  | cons q qs ih =>
    by_cases h : p.1 ≤ q.1
    · rw [insertByIdx, if_pos h]
    · rw [insertByIdx, if_neg h]
      exact (ih.cons q).trans (List.Perm.swap p q qs)

theorem sortByIdx_perm (l : List (Nat × ℚ)) : (sortByIdx l).Perm l := by
  induction l with
  | nil => simp [sortByIdx]
  | cons p ps ih =>
    rw [sortByIdx]
    exact (insertByIdx_perm p (sortByIdx ps)).trans (ih.cons p)

theorem insertByIdx_pairwise_le (p : Nat × ℚ) (l : List (Nat × ℚ))
    (hl : l.Pairwise (fun a b => a.1 ≤ b.1)) :
    (insertByIdx p l).Pairwise (fun a b => a.1 ≤ b.1) := by
  induction l with
  | nil => simp [insertByIdx]
  | cons q qs ih =>
    rw [List.pairwise_cons] at hl
    by_cases h : p.1 ≤ q.1
    · rw [insertByIdx, if_pos h]
      refine List.Pairwise.cons ?_ (List.Pairwise.cons hl.1 hl.2)
      intro x hx
      rcases List.mem_cons.mp hx with rfl | hx
      · exact h
      · exact h.trans (hl.1 x hx)
    · rw [insertByIdx, if_neg h]
      refine List.Pairwise.cons ?_ (ih hl.2)
      intro x hx
      rcases List.mem_cons.mp ((insertByIdx_perm p qs).mem_iff.mp hx) with rfl | hx
      · exact Nat.le_of_not_le h
      · exact hl.1 x hx

theorem sortByIdx_pairwise_le (l : List (Nat × ℚ)) :
    (sortByIdx l).Pairwise (fun a b => a.1 ≤ b.1) := by
  induction l with
  | nil => simp [sortByIdx]
  | cons p ps ih =>
    rw [sortByIdx]
    exact insertByIdx_pairwise_le p (sortByIdx ps) ih

/-- Stability of the descending insertion: inserting an element whose index
is below every index of an already tie-ordered list keeps ties ordered by
original index. -/
theorem insertByScore_pairwise_tie (p : Nat × ℚ) (l : List (Nat × ℚ))
    (hl : l.Pairwise (fun a b => a.2 = b.2 → a.1 < b.1))
    (hidx : ∀ q ∈ l, p.1 < q.1) :
    (insertByScore p l).Pairwise (fun a b => a.2 = b.2 → a.1 < b.1) := by
  induction l with
  | nil => simp [insertByScore]
  | cons q qs ih =>
    rw [List.pairwise_cons] at hl
    by_cases h : q.2 > p.2
    · rw [insertByScore, if_pos h]
      refine List.Pairwise.cons ?_ (ih hl.2 (fun x hx => hidx x (List.mem_cons_of_mem q hx)))
      intro x hx
      rcases List.mem_cons.mp ((insertByScore_perm p qs).mem_iff.mp hx) with rfl | hx
      · intro heq
        exact absurd heq.symm (ne_of_lt h)
      · exact hl.1 x hx
    · rw [insertByScore, if_neg h]
      refine List.Pairwise.cons ?_ (List.Pairwise.cons hl.1 hl.2)
      intro x hx
      intro _
      exact hidx x hx

theorem sortByScoreDesc_pairwise_tie (l : List (Nat × ℚ))
    (hl : l.Pairwise (fun a b => a.1 < b.1)) :
    (sortByScoreDesc l).Pairwise (fun a b => a.2 = b.2 → a.1 < b.1) := by
  induction l with
  | nil => simp [sortByScoreDesc]
  | cons p ps ih =>
    rw [List.pairwise_cons] at hl
    rw [sortByScoreDesc]
    refine insertByScore_pairwise_tie p (sortByScoreDesc ps) (ih hl.2) ?_
    intro q hq
    exact hl.1 q ((sortByScoreDesc_perm ps).subset hq)

/-- The score dict is enumerated with strictly increasing sentence
indices. -/
theorem score_sentences_pairwise_lt (wordTok : String → List String)
    (fm : List (String × ℚ)) (sentences : List String) :
    (score_sentences wordTok fm sentences).Pairwise (fun a b => a.1 < b.1) := by
  rw [score_sentences, List.pairwise_map]
  have h : (sentences.enum.map Prod.fst).Pairwise (· < ·) := by
    rw [List.enum_map_fst]
    exact List.pairwise_lt_range sentences.length
  rw [List.pairwise_map] at h
  exact h

/-- The indices drawn from the ranking into the final summary, in the order
they are rendered. -/
def summaryIndices (sentTok wordTok : String → List String)
    (stops : List String) (text : String) (k : Nat) : List Nat :=
  (selectTop (score_sentences wordTok
    (calculate_word_frequency wordTok stops (clean_text text))
    (sentTok (clean_text text))) k).map (fun p => p.1)

/-! ### C10: deterministic tie-breaking -/

/-- C10: the score-descending ranking is stable, so among sentences with
equal scores the one with the lower original index comes first in the
ranking (and is therefore selected first). -/
theorem ranking_tie_break (wordTok : String → List String)
    (fm : List (String × ℚ)) (sentences : List String) :
    (sortByScoreDesc (score_sentences wordTok fm sentences)).Pairwise
      (fun a b => a.2 = b.2 → a.1 < b.1) :=
  sortByScoreDesc_pairwise_tie _ (score_sentences_pairwise_lt wordTok fm sentences)

/-! ### C5: order preservation -/

/-- C5: with more than `k` sentences and `k ≥ 1`, the indices of the
sentences appearing in the final summary are strictly increasing, and the
summary is exactly those sentences joined in that order. -/
theorem summary_order_preserved (sentTok wordTok : String → List String)
    (stops : List String) (text : String) (k : Nat)
    (hk : 1 ≤ k) (hlen : k < (sentTok (clean_text text)).length) :
    (summaryIndices sentTok wordTok stops text k).Pairwise (· < ·) ∧
      summarize sentTok wordTok stops text k =
        String.intercalate " " ((summaryIndices sentTok wordTok stops text k).map
          (fun i => (sentTok (clean_text text)).getD i "")) := by
  constructor
  · rw [summaryIndices, List.pairwise_map]
    set scores := score_sentences wordTok
      (calculate_word_frequency wordTok stops (clean_text text))
      (sentTok (clean_text text)) with hscores
    have hlt : scores.Pairwise (fun a b => a.1 < b.1) :=
      score_sentences_pairwise_lt _ _ _
    have hne : scores.Pairwise (fun a b : Nat × ℚ => a.1 ≠ b.1) :=
      hlt.imp (fun h => Nat.ne_of_lt h)
    have hsymm : Symmetric (fun a b : Nat × ℚ => a.1 ≠ b.1) :=
      fun _ _ h => Ne.symm h
    have hne2 : (sortByScoreDesc scores).Pairwise (fun a b : Nat × ℚ => a.1 ≠ b.1) :=
      (((sortByScoreDesc_perm scores).symm).pairwise_iff (fun h => hsymm h)).mp hne
    have hne3 : ((sortByScoreDesc scores).take k).Pairwise (fun a b : Nat × ℚ => a.1 ≠ b.1) :=
      hne2.sublist (List.take_sublist k _)
    have hne4 : (sortByIdx ((sortByScoreDesc scores).take k)).Pairwise
        (fun a b : Nat × ℚ => a.1 ≠ b.1) :=
      ((sortByIdx_perm _).pairwise_iff (fun h => hsymm h)).mpr hne3
    have hle : (sortByIdx ((sortByScoreDesc scores).take k)).Pairwise
        (fun a b : Nat × ℚ => a.1 ≤ b.1) :=
      sortByIdx_pairwise_le _
    have := hle.and hne4
    rw [selectTop]
    exact this.imp (fun h => Nat.lt_of_le_of_ne h.1 h.2)
  · rw [summarize, summaryIndices]
    rw [if_neg (by omega)]
    rw [List.map_map]
    rfl

theorem summary_order_preserved_witness :
    1 ≤ 1 ∧ 1 < ((fun _ => ["a", "b"]) (clean_text "x") : List String).length ∧
      ((summaryIndices (fun _ => ["a", "b"]) (fun _ => []) [] "x" 1).Pairwise (· < ·) ∧
        summarize (fun _ => ["a", "b"]) (fun _ => []) [] "x" 1 =
          String.intercalate " " ((summaryIndices (fun _ => ["a", "b"]) (fun _ => []) [] "x" 1).map
            (fun i => (((fun _ => ["a", "b"]) (clean_text "x") : List String)).getD i ""))) :=
  ⟨by decide, by decide,
    summary_order_preserved (fun _ => ["a", "b"]) (fun _ => []) [] "x" 1 (by decide) (by decide)⟩

/-! ### Frequency-map value bounds (C4, C9) -/

theorem firstKeys_subset : ∀ (ws : List String) (w : String), w ∈ firstKeys ws → w ∈ ws
  | [], _, h => by simp [firstKeys] at h
  | v :: vs, w, h => by
    rw [firstKeys] at h
    rcases List.mem_cons.mp h with rfl | h
    · exact List.mem_cons_self w vs
    · exact List.mem_cons_of_mem v (firstKeys_subset vs w (List.mem_of_mem_filter h))

theorem init_le_foldl_max : ∀ (l : List Nat) (a : Nat), a ≤ l.foldl Nat.max a := by
  intro l
  induction l with
  | nil => intro a; exact Nat.le_refl a
  | cons b t ih =>
    intro a
    rw [List.foldl_cons]
    exact le_trans (Nat.le_max_left a b) (ih (Nat.max a b))

theorem mem_le_foldl_max : ∀ (l : List Nat) (a x : Nat), x ∈ l → x ≤ l.foldl Nat.max a := by
  intro l
  induction l with
  | nil => intro a x h; simp at h
  | cons b t ih =>
    intro a x h
    rw [List.foldl_cons]
    rcases List.mem_cons.mp h with rfl | h
    · exact le_trans (Nat.le_max_right a x) (init_le_foldl_max t (Nat.max a x))
    · exact ih (Nat.max a b) x h

theorem foldl_max_mem : ∀ (l : List Nat) (a : Nat),
    l.foldl Nat.max a = a ∨ l.foldl Nat.max a ∈ l := by
  intro l
  induction l with
  | nil => intro a; left; rfl
  | cons b t ih =>
    intro a
    rw [List.foldl_cons]
    rcases ih (Nat.max a b) with h | h
    · by_cases hab : a ≤ b
      · right
        have hm : Nat.max a b = b := Nat.max_eq_right hab
        rw [h, hm]
        exact List.mem_cons_self b t
      · left
        have hm : Nat.max a b = a := Nat.max_eq_left (Nat.le_of_not_le hab)
        rw [h, hm]
    · right; exact List.mem_cons_of_mem b h

theorem lookup_mem : ∀ (fm : List (String × ℚ)) (w : String) (v : ℚ),
    fm.lookup w = some v → (w, v) ∈ fm := by
  intro fm
  induction fm with
  | nil => intro w v h; simp [List.lookup] at h
  | cons p t ih =>
    intro w v h
    rw [List.lookup] at h
    by_cases hb : w == p.1
    · simp [hb] at h
      have hw : w = p.1 := eq_of_beq hb
      subst hw
      rw [← h]
      simp
    · simp [hb] at h
      exact List.mem_cons_of_mem p (ih w v h)

/-- Every count of a distinct surviving token is at most `maxCount`. -/
theorem count_le_maxCount (ws : List String) (w : String) (hw : w ∈ firstKeys ws) :
    ws.count w ≤ maxCount ws := by
  have hne : ws ≠ [] := by
    intro h
    rw [h, firstKeys] at hw
    simp at hw
  rw [maxCount, if_neg (by simpa using hne)]
  exact mem_le_foldl_max _ 0 _ (List.mem_map_of_mem (fun v => ws.count v) hw)

/-- Every value of the computed frequency map lies in `(0, 1]`. -/
theorem freq_val_bounds (wordTok : String → List String) (stops : List String)
    (text : String) (p : String × ℚ)
    (hp : p ∈ calculate_word_frequency wordTok stops text) :
    0 < p.2 ∧ p.2 ≤ 1 := by
  rw [calculate_word_frequency] at hp
  obtain ⟨w, hw, rfl⟩ := List.mem_map.mp hp
  set ws := filteredWords wordTok stops text with hws
  have hmem : w ∈ ws := firstKeys_subset ws w hw
  have hcpos : 0 < ws.count w := List.count_pos_iff.mpr hmem
  have hcle : ws.count w ≤ maxCount ws := count_le_maxCount ws w hw
  have hmaxpos : 0 < maxCount ws := lt_of_lt_of_le hcpos hcle
  constructor
  · exact div_pos (by exact_mod_cast hcpos) (by exact_mod_cast hmaxpos)
  · rw [div_le_one (by exact_mod_cast hmaxpos)]
    exact_mod_cast hcle

/-! ### C4: frequency normalization bound -/

/-- C4: whenever the word-frequency map is non-empty, every value is in
`(0, 1]` and the maximum value 1 is attained (each raw count having been
divided by the maximum raw count). -/
theorem freq_normalization_bound (wordTok : String → List String)
    (stops : List String) (text : String) (p : String × ℚ)
    (hp : p ∈ calculate_word_frequency wordTok stops text)
    (hne : calculate_word_frequency wordTok stops text ≠ []) :
    (0 < p.2 ∧ p.2 ≤ 1) ∧
      ∃ q ∈ calculate_word_frequency wordTok stops text, q.2 = 1 := by
  refine ⟨freq_val_bounds wordTok stops text p hp, ?_⟩
  set ws := filteredWords wordTok stops text with hws
  have hkne : firstKeys ws ≠ [] := by
    intro h
    rw [calculate_word_frequency, ← hws, h] at hne
    simp at hne
  have hwsne : ws ≠ [] := by
    intro h
    rw [h, firstKeys] at hkne
    simp at hkne
  obtain ⟨w0, hw0⟩ := List.exists_mem_of_ne_nil _ hkne
  have hc0 : 0 < ws.count w0 := List.count_pos_iff.mpr (firstKeys_subset ws w0 hw0)
  have hmax : maxCount ws = ((firstKeys ws).map (fun v => ws.count v)).foldl Nat.max 0 := by
    rw [maxCount, if_neg (by simpa using hwsne)]
  have hmaxpos : 0 < maxCount ws :=
    lt_of_lt_of_le hc0 (count_le_maxCount ws w0 hw0)
  rcases foldl_max_mem ((firstKeys ws).map (fun v => ws.count v)) 0 with h | h
  · rw [← hmax] at h
    omega
  · rw [← hmax] at h
    obtain ⟨w1, hw1, hcw1⟩ := List.mem_map.mp h
    refine ⟨(w1, (ws.count w1 : ℚ) / (maxCount ws : ℚ)), ?_, ?_⟩
    · rw [calculate_word_frequency, ← hws]
      exact List.mem_map_of_mem _ hw1
    · rw [hcw1]
      exact div_self (by exact_mod_cast (by omega : maxCount ws ≠ 0))

theorem freq_normalization_bound_witness :
    (("cat", (1:ℚ)) ∈ calculate_word_frequency spaceTok [] "cat") ∧
      calculate_word_frequency spaceTok [] "cat" ≠ [] ∧
      ((0 < (("cat", (1:ℚ)) : String × ℚ).2 ∧ (("cat", (1:ℚ)) : String × ℚ).2 ≤ 1) ∧
        ∃ q ∈ calculate_word_frequency spaceTok [] "cat", q.2 = 1) := by
  have e1 : filteredWords spaceTok [] "cat" = ["cat"] := by decide
  have e2 : calculate_word_frequency spaceTok [] "cat" = [("cat", 1)] := by
    rw [calculate_word_frequency, e1]
    norm_num [firstKeys, maxCount, List.count]
  have hp : ("cat", (1:ℚ)) ∈ calculate_word_frequency spaceTok [] "cat" := by
    rw [e2]; simp
  have hne : calculate_word_frequency spaceTok [] "cat" ≠ [] := by
    rw [e2]; simp
  exact ⟨hp, hne, freq_normalization_bound spaceTok [] "cat" ("cat", 1) hp hne⟩

/-! ### C9: score bound -/

/-- C9: with the frequency map computed from the text (assumed non-empty),
every computed sentence score lies in `[0, 1]`. -/
theorem sentence_score_bound (wordTok wordTok' : String → List String)
    (stops : List String) (text s : String)
    (hne : calculate_word_frequency wordTok stops text ≠ []) :
    0 ≤ sentenceScore wordTok' (calculate_word_frequency wordTok stops text) s ∧
      sentenceScore wordTok' (calculate_word_frequency wordTok stops text) s ≤ 1 := by
  set fm := calculate_word_frequency wordTok stops text with hfm
  have hval : ∀ w, (fm.lookup w).isSome = true →
      0 ≤ (fm.lookup w).getD 0 ∧ (fm.lookup w).getD 0 ≤ 1 := by
    intro w hw
    obtain ⟨v, hv⟩ := Option.isSome_iff_exists.mp hw
    have hmem : (w, v) ∈ fm := lookup_mem fm w v hv
    have := freq_val_bounds wordTok stops text (w, v) (hfm ▸ hmem)
    rw [hv]
    exact ⟨le_of_lt this.1, this.2⟩
  rw [sentenceScore]
  set ws := (wordTok' (lowerStr s)).filter pyStrIsAlnum with hws
  set inws := ws.filter (fun w => (fm.lookup w).isSome) with hinws
  by_cases h0 : inws.length = 0
  · rw [if_pos h0]
    norm_num
  · rw [if_neg h0]
    have hlpos : 0 < (inws.length : ℚ) := by exact_mod_cast Nat.pos_of_ne_zero h0
    have hbound : ∀ x ∈ inws.map (fun w => ((fm.lookup w).getD 0)), 0 ≤ x ∧ x ≤ 1 := by
      intro x hx
      obtain ⟨w, hw, rfl⟩ := List.mem_map.mp hx
      have hsome : (fm.lookup w).isSome = true := by
        have := List.mem_filter.mp (hinws ▸ hw)
        exact this.2
      exact hval w hsome
    constructor
    · exact div_nonneg
        (List.sum_nonneg (fun x hx => (hbound x hx).1)) (le_of_lt hlpos)
    · rw [div_le_one hlpos]
      have hsum : (inws.map (fun w => ((fm.lookup w).getD 0))).sum ≤
          (inws.map (fun w => ((fm.lookup w).getD 0))).length • (1:ℚ) :=
        List.sum_le_card_nsmul _ 1 (fun x hx => (hbound x hx).2)
      rw [List.length_map] at hsum
      calc (inws.map (fun w => ((fm.lookup w).getD 0))).sum
        ≤ inws.length • (1:ℚ) := hsum
        _ = (inws.length : ℚ) := by rw [nsmul_eq_mul, mul_one]

theorem sentence_score_bound_witness :
    calculate_word_frequency spaceTok [] "cat" ≠ [] ∧
      (0 ≤ sentenceScore spaceTok (calculate_word_frequency spaceTok [] "cat") "cat dog" ∧
        sentenceScore spaceTok (calculate_word_frequency spaceTok [] "cat") "cat dog" ≤ 1) := by
  have e1 : filteredWords spaceTok [] "cat" = ["cat"] := by decide
  have hne : calculate_word_frequency spaceTok [] "cat" ≠ [] := by
    rw [calculate_word_frequency, e1]
    simp [firstKeys]
  exact ⟨hne, sentence_score_bound spaceTok spaceTok [] "cat" "cat dog" hne⟩

/-! ### Structure of normalized text (C6, C7) -/

/-- No two adjacent characters are both whitespace. -/
def SpRel (x y : Char) : Prop := ¬(isPySpace x = true ∧ isPySpace y = true)

/-- Every whitespace character in the list is a plain space. -/
def OnlySp (l : List Char) : Prop := ∀ c ∈ l, isPySpace c = true → c = ' '

/-- No run of two whitespace characters. -/
def NoDbl (l : List Char) : Prop := l.Chain' SpRel

/-- Every character survives the deletion regex. -/
def AllKept (l : List Char) : Prop := ∀ c ∈ l, isKeptChar c = true

/-- Neither end of the list carries whitespace. -/
def Trimmed (l : List Char) : Prop :=
  l.dropWhile isPySpace = l ∧ l.reverse.dropWhile isPySpace = l.reverse

theorem collapse_mem : ∀ (l : List Char) (c : Char), c ∈ collapseWs l →
    c = ' ' ∨ (c ∈ l ∧ isPySpace c = false)
  | [], c, h => by simp [collapseWs] at h
  | [a], c, h => by
    rw [collapseWs] at h
    by_cases ha : isPySpace a = true
    · rw [if_pos ha] at h
      left
      simpa using h
    · rw [if_neg ha] at h
      have hc : c = a := by simpa using h
      right
      subst hc
      exact ⟨by simp, by simpa using ha⟩
  | a :: b :: cs, c, h => by
    rw [collapseWs] at h
    by_cases ha : isPySpace a = true
    · rw [if_pos ha] at h
      by_cases hb : isPySpace b = true
      · rw [if_pos hb] at h
        rcases collapse_mem (b :: cs) c h with h1 | ⟨h1, h2⟩
        · exact Or.inl h1
        · exact Or.inr ⟨List.mem_cons_of_mem a h1, h2⟩
      · rw [if_neg hb] at h
        rcases List.mem_cons.mp h with rfl | h
        · exact Or.inl rfl
        · rcases collapse_mem (b :: cs) c h with h1 | ⟨h1, h2⟩
          · exact Or.inl h1
          · exact Or.inr ⟨List.mem_cons_of_mem a h1, h2⟩
    · rw [if_neg ha] at h
      rcases List.mem_cons.mp h with rfl | h
      · exact Or.inr ⟨List.mem_cons_self c (b :: cs), by simpa using ha⟩
      · rcases collapse_mem (b :: cs) c h with h1 | ⟨h1, h2⟩
        · exact Or.inl h1
        · exact Or.inr ⟨List.mem_cons_of_mem a h1, h2⟩

theorem collapse_onlySp (l : List Char) : OnlySp (collapseWs l) := by
  intro c hc hsp
  rcases collapse_mem l c hc with h | ⟨_, h⟩
  · exact h
  · rw [h] at hsp
    exact absurd hsp (by simp)

theorem collapse_head_nonsp : ∀ (cs : List Char) (d : Char),
    isPySpace d = false → ∃ t, collapseWs (d :: cs) = d :: t
  | [], d, h => ⟨[], by rw [collapseWs, if_neg (by simp [h])]⟩
  | e :: cs', d, h =>
    ⟨collapseWs (e :: cs'), by rw [collapseWs, if_neg (by simp [h])]⟩

theorem collapse_head_sp : ∀ (cs : List Char) (d : Char),
    isPySpace d = true → ∃ t, collapseWs (d :: cs) = ' ' :: t
  | [], d, h => ⟨[], by rw [collapseWs, if_pos h]⟩
  | e :: cs', d, h => by
    rw [collapseWs, if_pos h]
    by_cases he : isPySpace e = true
    · rw [if_pos he]
      exact collapse_head_sp cs' e he
    · rw [if_neg he]
      exact ⟨collapseWs (e :: cs'), rfl⟩

theorem collapse_noDbl : ∀ (l : List Char), NoDbl (collapseWs l)
  | [] => by simp [collapseWs, NoDbl]
  | [a] => by
    rw [NoDbl, collapseWs]
    by_cases ha : isPySpace a = true
    · rw [if_pos ha]
      simp
    · rw [if_neg ha]
      simp
  | a :: b :: cs => by
    rw [NoDbl, collapseWs]
    by_cases ha : isPySpace a = true
    · rw [if_pos ha]
      by_cases hb : isPySpace b = true
      · rw [if_pos hb]
        exact collapse_noDbl (b :: cs)
      · rw [if_neg hb]
        obtain ⟨t, ht⟩ := collapse_head_nonsp cs b (by simpa using hb)
        rw [ht, List.chain'_cons]
        refine ⟨fun hcon => hb hcon.2, ?_⟩
        have h2 := collapse_noDbl (b :: cs)
        rw [NoDbl, ht] at h2
        exact h2
    · rw [if_neg ha]
      by_cases hb : isPySpace b = true
      · obtain ⟨t, ht⟩ := collapse_head_sp cs b hb
        rw [ht, List.chain'_cons]
        refine ⟨fun hcon => ha hcon.1, ?_⟩
        have h2 := collapse_noDbl (b :: cs)
        rw [NoDbl, ht] at h2
        exact h2
      · obtain ⟨t, ht⟩ := collapse_head_nonsp cs b (by simpa using hb)
        rw [ht, List.chain'_cons]
        refine ⟨fun hcon => ha hcon.1, ?_⟩
        have h2 := collapse_noDbl (b :: cs)
        rw [NoDbl, ht] at h2
        exact h2

theorem collapse_fix : ∀ (l : List Char), OnlySp l → NoDbl l → collapseWs l = l
  | [], _, _ => rfl
  | [a], hsp, _ => by
    rw [collapseWs]
    by_cases ha : isPySpace a = true
    · rw [if_pos ha, hsp a (List.mem_cons_self a []) ha]
    · rw [if_neg ha]
  | a :: b :: cs, hsp, hdbl => by
    have htl : NoDbl (b :: cs) := hdbl.tail
    have hsptl : OnlySp (b :: cs) := fun c hc => hsp c (List.mem_cons_of_mem a hc)
    rw [collapseWs]
    by_cases ha : isPySpace a = true
    · have haeq : a = ' ' := hsp a (List.mem_cons_self a (b :: cs)) ha
      have hrel : SpRel a b := (List.chain'_cons.mp hdbl).1
      have hb : ¬ isPySpace b = true := fun hbt => hrel ⟨ha, hbt⟩
      rw [if_pos ha, if_neg hb, collapse_fix (b :: cs) hsptl htl, haeq]
    · rw [if_neg ha, collapse_fix (b :: cs) hsptl htl]

theorem collapse_allKept (l : List Char) (h : AllKept l) : AllKept (collapseWs l) := by
  intro c hc
  rcases collapse_mem l c hc with h1 | ⟨h1, _⟩
  · rw [h1]
    decide
  · exact h c h1

theorem stripWs_subset (l : List Char) (c : Char) (hc : c ∈ stripWs l) : c ∈ l := by
  rw [stripWs] at hc
  rw [List.mem_reverse] at hc
  have h1 := (List.dropWhile_sublist isPySpace).subset hc
  rw [List.mem_reverse] at h1
  exact (List.dropWhile_sublist isPySpace).subset h1

theorem chain'_dropWhile (R : Char → Char → Prop) (p : Char → Bool)
    (l : List Char) (h : l.Chain' R) : (l.dropWhile p).Chain' R := by
  have hsplit : l.takeWhile p ++ l.dropWhile p = l := List.takeWhile_append_dropWhile p l
  rw [← hsplit] at h
  exact (List.chain'_append.mp h).2.1

theorem noDbl_reverse (l : List Char) (h : NoDbl l) : NoDbl l.reverse := by
  rw [NoDbl, List.chain'_reverse]
  refine h.imp ?_
  intro a b hab hcon
  exact hab ⟨hcon.2, hcon.1⟩

theorem stripWs_noDbl (l : List Char) (h : NoDbl l) : NoDbl (stripWs l) := by
  rw [stripWs]
  exact noDbl_reverse _ (chain'_dropWhile _ _ _ (noDbl_reverse _ (chain'_dropWhile _ _ _ h)))

theorem dropWhile_dropWhile (p : Char → Bool) (l : List Char) :
    (l.dropWhile p).dropWhile p = l.dropWhile p := by
  induction l with
  | nil => rfl
  | cons c t ih =>
    by_cases hp : p c
    · rw [List.dropWhile_cons, if_pos hp, ih]
    · rw [List.dropWhile_cons, if_neg hp, List.dropWhile_cons, if_neg hp]

theorem dropWhile_eq_self_append (p : Char → Bool) :
    ∀ (a b : List Char), (a ++ b).dropWhile p = a ++ b → a.dropWhile p = a := by
  intro a
  cases a with
  | nil => intro b _; rfl
  | cons c a' =>
    intro b h
    rw [List.cons_append, List.dropWhile_cons] at h
    by_cases hp : p c
    · rw [if_pos hp] at h
      have hle : ((a' ++ b).dropWhile p).length ≤ (a' ++ b).length :=
        (List.dropWhile_sublist p).length_le
      rw [h] at hle
      simp at hle
    · rw [List.dropWhile_cons, if_neg hp]

theorem strip_trimmed (l : List Char) : Trimmed (stripWs l) := by
  constructor
  · rw [stripWs]
    have hx : (l.dropWhile isPySpace).dropWhile isPySpace = l.dropWhile isPySpace :=
      dropWhile_dropWhile isPySpace l
    have hsplit : (l.dropWhile isPySpace).reverse.takeWhile isPySpace ++
        (l.dropWhile isPySpace).reverse.dropWhile isPySpace =
        (l.dropWhile isPySpace).reverse :=
      List.takeWhile_append_dropWhile isPySpace (l.dropWhile isPySpace).reverse
    have hdecomp : l.dropWhile isPySpace =
        ((l.dropWhile isPySpace).reverse.dropWhile isPySpace).reverse ++
          ((l.dropWhile isPySpace).reverse.takeWhile isPySpace).reverse := by
      have := congrArg List.reverse hsplit
      rw [List.reverse_append, List.reverse_reverse] at this
      exact this.symm
    have hfix : (l.dropWhile isPySpace).dropWhile isPySpace = l.dropWhile isPySpace := hx
    rw [hdecomp] at hfix
    exact dropWhile_eq_self_append isPySpace _ _ hfix
  · rw [stripWs, List.reverse_reverse]
    exact dropWhile_dropWhile isPySpace _

theorem strip_fix (l : List Char) (h : Trimmed l) : stripWs l = l := by
  rw [stripWs, h.1, h.2, List.reverse_reverse]

theorem cleanL_allKept (l : List Char) : AllKept (cleanL l) := by
  intro c hc
  have h1 := stripWs_subset _ c hc
  exact (List.mem_filter.mp h1).2

theorem cleanL_onlySp (l : List Char) : OnlySp (cleanL l) := by
  intro c hc hsp
  have h1 := stripWs_subset _ c hc
  exact collapse_onlySp l c (List.mem_of_mem_filter h1) hsp

theorem cleanL_trimmed (l : List Char) : Trimmed (cleanL l) :=
  strip_trimmed ((collapseWs l).filter isKeptChar)

theorem cleanL_eq_of_allKept (m : List Char) (h : AllKept m) :
    cleanL m = stripWs (collapseWs m) := by
  rw [cleanL, List.filter_eq_self.mpr (collapse_allKept m h)]

theorem cleanL_fix (m : List Char) (h1 : OnlySp m) (h2 : NoDbl m)
    (h3 : AllKept m) (h4 : Trimmed m) : cleanL m = m := by
  rw [cleanL, collapse_fix m h1 h2, List.filter_eq_self.mpr h3, strip_fix m h4]

theorem cleanL_cleanL (l : List Char) :
    cleanL (cleanL (cleanL l)) = cleanL (cleanL l) := by
  have hky : AllKept (cleanL l) := cleanL_allKept l
  have hz_eq : cleanL (cleanL l) = stripWs (collapseWs (cleanL l)) :=
    cleanL_eq_of_allKept (cleanL l) hky
  have hzk : AllKept (cleanL (cleanL l)) := cleanL_allKept (cleanL l)
  have hzs : OnlySp (cleanL (cleanL l)) := cleanL_onlySp (cleanL l)
  have hznd : NoDbl (cleanL (cleanL l)) := by
    rw [hz_eq]
    exact stripWs_noDbl _ (collapse_noDbl (cleanL l))
  have hzt : Trimmed (cleanL (cleanL l)) := cleanL_trimmed (cleanL l)
  exact cleanL_fix _ hzs hznd hzk hzt

/-! ### C6: idempotence of normalization -/

/-- C6 counterexample: `clean_text` is not idempotent.  On "a @ b" the
whitespace runs are collapsed before the "@" is deleted, leaving the double
space "a  b"; a second application collapses it to "a b". -/
theorem normalize_not_idempotent :
    clean_text (clean_text "a @ b") ≠ clean_text "a @ b" := by decide

/-- C6 (amended): the double application of `clean_text` is idempotent —
`normalize(normalize(normalize(x))) = normalize(normalize(x))` for every
string `x`. -/
theorem normalize_twice_idempotent (s : String) :
    clean_text (clean_text (clean_text s)) = clean_text (clean_text s) := by
  show (⟨cleanL (cleanL (cleanL s.data))⟩ : String) = ⟨cleanL (cleanL s.data)⟩
  exact congrArg String.mk (cleanL_cleanL s.data)

/-! ### C7: what normalization keeps -/

/-- C7 counterexample: Python's `\w` keeps the underscore, which is neither
alphanumeric, whitespace, nor one of `. , ! ? -`; the claimed pipeline
deletes it. -/
theorem clean_text_claim_fails :
    clean_text "_" ≠ cleanTextClaimed "_" := by decide

/-- C7 (amended): `clean_text` collapses whitespace runs, removes every
character that is not alphanumeric, an underscore, whitespace or one of
`. , ! ? -`, then trims; empty input yields empty output. -/
theorem clean_text_spec (s : String) :
    clean_text s = cleanTextUnderscore s ∧ clean_text "" = "" := by
  refine ⟨?_, by decide⟩
  rw [clean_text, cleanTextUnderscore, cleanL]
  have hfil : (collapseWs s.data).filter isKeptChar =
      (collapseWs s.data).filter
        (fun c => c.isAlphanum || c = '_' || isPySpace c ||
          c = '.' || c = ',' || c = '!' || c = '?' || c = '-') :=
    List.filter_congr (fun c _ => by simp only [isKeptChar, isWordChar])
  rw [hfil]

end Summarizer
